import Mathlib

/-!
# ChatMix matchmaking core — shallow embedding

A shallow embedding of the in-memory room/queue matchmaking engine of the
ChatMix repository (`internal/model/chat.go` and the chat half of
`internal/service/auth_service.go`), together with proofs of the spec's
claims about it.

Modelling conventions:
* Go `time.Time` values become `Nat` instants; every operation takes the
  current instant `now` as an explicit parameter (`time.Now()` inside one
  critical section is a single instant).
* The Go registry `map[string]*ChatRoom` becomes a `List ChatRoom`; map
  iteration order is unspecified in Go, the list order fixes one concrete
  iteration order.  Map insertion is modelled as appending to the list,
  `delete` as removing the room from the list.
* Room codes become `Nat`.  The Go `generateRoomCode` draws random
  8-character codes and retries until the code is not a key of the registry;
  its sole guarantee is freshness, which the model realises
  deterministically (one more than the largest code in use).
* Lock acquisition/release disappears: each exported operation is one atomic
  state transformation, exactly the contents of its critical section.
-/

namespace ChatMix

/-- `config.ChatConfig`: `MaxRooms`, `QueueTimeout`, `RoomCleanupInterval`. -/
structure ChatConfig where
  maxRooms : Nat
  queueTimeout : Nat
  roomCleanupInterval : Nat
deriving DecidableEq, Repr

/-- `model.QueueEntry`. -/
structure QueueEntry where
  username : String
  queuedAt : Nat
deriving DecidableEq, Repr

/-- `model.ChatRoom`. -/
structure ChatRoom where
  code : Nat
  users : List String
  createdAt : Nat
  updatedAt : Nat
deriving DecidableEq, Repr

/-- `ChatRoom.IsFull`: `len(r.Users) >= 2`. -/
def ChatRoom.IsFull (r : ChatRoom) : Bool :=
  decide (2 ≤ r.users.length)

/-- `ChatRoom.HasUser`: linear scan of `r.Users` for `username`. -/
def ChatRoom.HasUser (r : ChatRoom) (u : String) : Bool :=
  r.users.contains u

/-- `ChatRoom.IsWaiting`: `len(r.Users) == 1`. -/
def ChatRoom.IsWaiting (r : ChatRoom) : Bool :=
  r.users.length == 1

/-- `ChatRoom.AddUser`: appends `u` and bumps `UpdatedAt` unless `u` is
already a member or the room is full. -/
def ChatRoom.AddUser (r : ChatRoom) (u : String) (now : Nat) : ChatRoom :=
  if !r.HasUser u && !r.IsFull then
    { r with users := r.users ++ [u], updatedAt := now }
  else r

/-- `ChatRoom.RemoveUser`: removes the first occurrence of `u` (if any) and
bumps `UpdatedAt` when a removal happened. -/
def ChatRoom.RemoveUser (r : ChatRoom) (u : String) (now : Nat) : ChatRoom :=
  if r.HasUser u then
    { r with users := r.users.erase u, updatedAt := now }
  else r

/-- The mutable state owned by `chatService`: the room registry and the FIFO
wait queue. -/
structure ChatState where
  rooms : List ChatRoom
  queue : List QueueEntry
deriving DecidableEq, Repr

/-- `NewChatService` starts from an empty registry and an empty queue. -/
def initialState : ChatState := ⟨[], []⟩

/-- `model.ChatStartResponse`.  The status strings `"room_assigned"` and
`"queued"` become an enumeration. -/
inductive ChatStatus where
  | roomAssigned
  | queued
deriving DecidableEq, Repr

structure ChatStartResponse where
  status : ChatStatus
  roomCode : Nat
  position : Nat
  message : String
deriving DecidableEq, Repr

/-- `chatService.generateRoomCode` draws random codes, retrying until one is
absent from the registry; the model keeps its sole guarantee — freshness
against the current registry — deterministically. -/
def generateRoomCode (rooms : List ChatRoom) : Nat :=
  (rooms.map ChatRoom.code).foldr max 0 + 1

/-- The queue-membership loop of `addToQueue` / `GetQueuePosition`:
index of the first entry for `u`, starting the count at `i`. -/
def findUserIdx (u : String) : List QueueEntry → Nat → Option Nat
  | [], _ => none
  | e :: es, i => if e.username == u then some i else findUserIdx u es (i + 1)

/-- `chatService.addToQueue`: idempotent enqueue returning a `queued`
response with the 1-based position.  (Go formats the position into the
message string; the model keeps a fixed message.) -/
def addToQueue (now : Nat) (s : ChatState) (u : String) :
    ChatStartResponse × ChatState :=
  match findUserIdx u s.queue 0 with
  | some i =>
      ({ status := .queued, roomCode := 0, position := i + 1,
         message := "Already in queue" }, s)
  | none =>
      let q := s.queue ++ [⟨u, now⟩]
      ({ status := .queued, roomCode := 0, position := q.length,
         message := "Added to queue" }, { s with queue := q })

/-- `chatService.GetQueuePosition`: 1-based position of `u`, 0 if absent. -/
def GetQueuePosition (s : ChatState) (u : String) : Nat :=
  match findUserIdx u s.queue 0 with
  | some i => i + 1
  | none => 0

/-- The waiting-room loop shared by `StartChat` and `tryAssignQueuedUsers`:
finds the first room with exactly one member, applies `AddUser` to it in
place, and reports its code; `none` when no waiting room exists. -/
def addToFirstWaiting (now : Nat) (u : String) :
    List ChatRoom → Option Nat × List ChatRoom
  | [] => (none, [])
  | r :: rs =>
      if r.IsWaiting then (some r.code, r.AddUser u now :: rs)
      else
        let p := addToFirstWaiting now u rs
        (p.1, r :: p.2)

/-- `chatService.StartChat`. -/
def StartChat (cfg : ChatConfig) (now : Nat) (s : ChatState) (u : String) :
    ChatStartResponse × ChatState :=
  match s.rooms.find? (fun r => r.HasUser u) with
  | some r =>
      ({ status := .roomAssigned, roomCode := r.code, position := 0,
         message := "Already in room" }, s)
  | none =>
      match addToFirstWaiting now u s.rooms with
      | (some c, rooms') =>
          ({ status := .roomAssigned, roomCode := c, position := 0,
             message := "Joined existing room" }, { s with rooms := rooms' })
      | (none, _) =>
          if s.rooms.length < cfg.maxRooms then
            let code := generateRoomCode s.rooms
            let room : ChatRoom :=
              { code := code, users := [u], createdAt := now, updatedAt := now }
            ({ status := .roomAssigned, roomCode := code, position := 0,
               message := "Created new room" },
             { s with rooms := s.rooms ++ [room] })
          else
            addToQueue now s u

/-- Result of `chatService.JoinRoom`: `nil`, `room not found`, `room is
full`. -/
inductive JoinResult where
  | ok
  | roomNotFound
  | roomFull
deriving DecidableEq, Repr

/-- The in-place `room.AddUser(username)` of `JoinRoom`, applied to the room
holding `code` in the registry list. -/
def updateRoomsAdd (now : Nat) (code : Nat) (u : String) :
    List ChatRoom → List ChatRoom
  | [] => []
  | r :: rs =>
      if r.code == code then r.AddUser u now :: rs
      else r :: updateRoomsAdd now code u rs

/-- `chatService.JoinRoom`. -/
def JoinRoom (now : Nat) (s : ChatState) (code : Nat) (u : String) :
    JoinResult × ChatState :=
  match s.rooms.find? (fun r => r.code == code) with
  | none => (.roomNotFound, s)
  | some r =>
      if r.HasUser u then (.ok, s)
      else if r.IsFull then (.roomFull, s)
      else (.ok, { s with rooms := updateRoomsAdd now code u s.rooms })

/-- The body of `LeaveRoom` on the registry list: find the room holding
`code`, remove `u` from it, delete it when its membership became empty. -/
def leaveRooms (now : Nat) (code : Nat) (u : String) :
    List ChatRoom → List ChatRoom
  | [] => []
  | r :: rs =>
      if r.code == code then
        let r' := r.RemoveUser u now
        if r'.users.isEmpty then rs else r' :: rs
      else r :: leaveRooms now code u rs

/-- `chatService.LeaveRoom`: total, returns no error. -/
def LeaveRoom (now : Nat) (s : ChatState) (code : Nat) (u : String) :
    ChatState :=
  { s with rooms := leaveRooms now code u s.rooms }

/-- The single pass of `chatService.tryAssignQueuedUsers` over the queue:
for each entry in FIFO order, join the first waiting room, else create a
new room when under `maxRooms`, else keep the entry. -/
def tryAssignQueuedUsers (cfg : ChatConfig) (now : Nat) :
    List QueueEntry → List ChatRoom → List QueueEntry × List ChatRoom
  | [], rooms => ([], rooms)
  | e :: es, rooms =>
      match addToFirstWaiting now e.username rooms with
      | (some _, rooms') => tryAssignQueuedUsers cfg now es rooms'
      | (none, _) =>
          if rooms.length < cfg.maxRooms then
            let code := generateRoomCode rooms
            tryAssignQueuedUsers cfg now es
              (rooms ++ [⟨code, [e.username], now, now⟩])
          else
            let p := tryAssignQueuedUsers cfg now es rooms
            (e :: p.1, p.2)

/-- One tick of the promotion sweep (`processQueue` body). -/
def promotionSweep (cfg : ChatConfig) (now : Nat) (s : ChatState) : ChatState :=
  let p := tryAssignQueuedUsers cfg now s.queue s.rooms
  { rooms := p.2, queue := p.1 }

/-- One tick of `chatService.cleanupExpiredQueueEntries`: keep exactly the
entries with `now - queuedAt < queueTimeout`. -/
def cleanupExpiredQueueEntries (cfg : ChatConfig) (now : Nat) (s : ChatState) :
    ChatState :=
  { s with queue := s.queue.filter (fun e => decide (now - e.queuedAt < cfg.queueTimeout)) }

/-- One tick of `chatService.cleanupLonelyRooms`: delete exactly the rooms
with exactly one member and `now - updatedAt >= roomCleanupInterval`. -/
def cleanupLonelyRooms (cfg : ChatConfig) (now : Nat) (s : ChatState) :
    ChatState :=
  { s with rooms := s.rooms.filter (fun r => !(r.users.length == 1 && decide (cfg.roomCleanupInterval ≤ now - r.updatedAt))) }

/-- One atomic operation of the engine: the three client calls and the three
maintenance ticks, each at an arbitrary instant. -/
inductive Step (cfg : ChatConfig) : ChatState → ChatState → Prop where
  | startChat (now : Nat) (u : String) (s : ChatState) :
      Step cfg s (StartChat cfg now s u).2
  | joinRoom (now : Nat) (code : Nat) (u : String) (s : ChatState) :
      Step cfg s (JoinRoom now s code u).2
  | leaveRoom (now : Nat) (code : Nat) (u : String) (s : ChatState) :
      Step cfg s (LeaveRoom now s code u)
  | promote (now : Nat) (s : ChatState) :
      Step cfg s (promotionSweep cfg now s)
  | expire (now : Nat) (s : ChatState) :
      Step cfg s (cleanupExpiredQueueEntries cfg now s)
  | reap (now : Nat) (s : ChatState) :
      Step cfg s (cleanupLonelyRooms cfg now s)

/-- States reachable from the empty initial state by engine operations. -/
inductive Reachable (cfg : ChatConfig) : ChatState → Prop where
  | init : Reachable cfg initialState
  | step {s s' : ChatState} : Reachable cfg s → Step cfg s s' → Reachable cfg s'

/-! ## Spec-side definitions

These definitions transcribe the spec's words (for the refinement claims)
rather than the Go control flow; each claim theorem compares them with the
source-embedded operation above. -/

/-- Splits a list around the first element satisfying `p`: the elements
before it (none of which satisfy `p`), the element, and the rest. -/
def splitFirstWith (p : α → Bool) : List α → Option (List α × α × List α)
  | [] => none
  | x :: xs =>
      if p x then some ([], x, xs)
      else
        match splitFirstWith p xs with
        | some (pre, y, post) => some (x :: pre, y, post)
        | none => none

/-- Spec-side queue position: the 1-based index of the first entry for `u`,
`none` when `u` is not queued. -/
def queuePositionSpec (u : String) : List QueueEntry → Option Nat
  | [] => none
  | e :: es =>
      if e.username == u then some 1
      else (queuePositionSpec u es).map (· + 1)

/-- Spec-side `startChat` decision procedure, transcribed from the spec's
four ordered cases: already-in-room, join first waiting room (the user is
appended outright), create a fresh room under capacity, else enqueue. -/
def startChatSpec (cfg : ChatConfig) (now : Nat) (s : ChatState) (u : String) :
    ChatStartResponse × ChatState :=
  match s.rooms.find? (fun r => r.HasUser u) with
  | some r =>
      ({ status := .roomAssigned, roomCode := r.code, position := 0,
         message := "Already in room" }, s)
  | none =>
      match splitFirstWith ChatRoom.IsWaiting s.rooms with
      | some (pre, r, post) =>
          ({ status := .roomAssigned, roomCode := r.code, position := 0,
             message := "Joined existing room" },
           { s with rooms := pre ++ ({ r with users := r.users ++ [u], updatedAt := now } :: post) })
      | none =>
          if s.rooms.length < cfg.maxRooms then
            ({ status := .roomAssigned, roomCode := generateRoomCode s.rooms, position := 0,
               message := "Created new room" },
             { s with rooms := s.rooms ++ [⟨generateRoomCode s.rooms, [u], now, now⟩] })
          else
            match queuePositionSpec u s.queue with
            | some p =>
                ({ status := .queued, roomCode := 0, position := p,
                   message := "Already in queue" }, s)
            | none =>
                ({ status := .queued, roomCode := 0, position := s.queue.length + 1,
                   message := "Added to queue" },
                 { s with queue := s.queue ++ [⟨u, now⟩] })

/-- Spec-side `joinRoom` guards: unknown code fails, existing member is a
no-op success even in a full room, a full room rejects a third user, and
otherwise the user is appended and `updatedAt` refreshed. -/
def joinRoomSpec (now : Nat) (s : ChatState) (code : Nat) (u : String) :
    JoinResult × ChatState :=
  match splitFirstWith (fun r => r.code == code) s.rooms with
  | none => (.roomNotFound, s)
  | some (pre, r, post) =>
      if r.HasUser u then (.ok, s)
      else if 2 ≤ r.users.length then (.roomFull, s)
      else (.ok, { s with rooms := pre ++ ({ r with users := r.users ++ [u], updatedAt := now } :: post) })

/-- Spec-side `leaveRoom`: missing room or missing membership leave the
registry unchanged; otherwise the user is removed and the room deleted
exactly when its membership became empty. -/
def leaveRoomSpec (now : Nat) (s : ChatState) (code : Nat) (u : String) :
    ChatState :=
  match splitFirstWith (fun r => r.code == code) s.rooms with
  | none => s
  | some (pre, r, post) =>
      if r.HasUser u then
        if (r.users.erase u).isEmpty then { s with rooms := pre ++ post }
        else { s with rooms := pre ++ ({ r with users := r.users.erase u, updatedAt := now } :: post) }
      else s

/-- Spec-side promotion sweep: one pass over the queued entries in FIFO
order; each entry joins the first waiting room (the spec's `addMember`,
i.e. `AddUser`), else gets a fresh room when the registry is under
capacity, else stays; the relative order of kept entries is untouched. -/
def promoteSpec (cfg : ChatConfig) (now : Nat) :
    List QueueEntry → List ChatRoom → List QueueEntry × List ChatRoom
  | [], rooms => ([], rooms)
  | e :: es, rooms =>
      match splitFirstWith ChatRoom.IsWaiting rooms with
      | some (pre, r, post) =>
          promoteSpec cfg now es (pre ++ (r.AddUser e.username now :: post))
      | none =>
          if rooms.length < cfg.maxRooms then
            promoteSpec cfg now es (rooms ++ [⟨generateRoomCode rooms, [e.username], now, now⟩])
          else
            let p := promoteSpec cfg now es rooms
            (e :: p.1, p.2)

/-- The room-capacity invariant of the spec: every registered room has one
or two members (so between 0 and 2, and never 0). -/
def RoomInv (s : ChatState) : Prop :=
  ∀ r ∈ s.rooms, 1 ≤ r.users.length ∧ r.users.length ≤ 2

/-! ## Helper lemmas -/

theorem find?_eq_splitFirstWith (p : α → Bool) :
    ∀ l : List α, l.find? p = (splitFirstWith p l).map (fun t => t.2.1) := by
  intro l
  induction l with
  | nil => simp [splitFirstWith]
  | cons x xs ih =>
      by_cases hx : p x = true
      · simp [splitFirstWith, hx, List.find?_cons_of_pos]
      · rw [List.find?_cons_of_neg _ hx, ih]
        simp only [splitFirstWith, if_neg hx]
        cases h : splitFirstWith p xs with
        | none => simp
        | some t => obtain ⟨pre, y, post⟩ := t; simp

theorem splitFirstWith_eq_none {p : α → Bool} {l : List α} :
    splitFirstWith p l = none ↔ ∀ x ∈ l, p x = false := by
  constructor
  · intro hn x hx
    have hf : l.find? p = none := by
      rw [find?_eq_splitFirstWith, hn]; rfl
    simpa using List.find?_eq_none.mp hf x hx
  · intro hall
    have hf : l.find? p = none :=
      List.find?_eq_none.mpr (fun x hx => by simp [hall x hx])
    rw [find?_eq_splitFirstWith] at hf
    exact Option.map_eq_none'.mp hf

theorem splitFirstWith_sat {p : α → Bool} :
    ∀ {l pre x post}, splitFirstWith p l = some (pre, x, post) →
      p x = true ∧ l = pre ++ x :: post ∧ ∀ y ∈ pre, p y = false := by
  intro l
  induction l with
  | nil => intro pre x post h; simp [splitFirstWith] at h
  | cons a as ih =>
      intro pre x post h
      by_cases ha : p a = true
      · simp only [splitFirstWith, if_pos ha, Option.some.injEq, Prod.mk.injEq] at h
        obtain ⟨h1, h2, h3⟩ := h
        subst h1; subst h2; subst h3
        exact ⟨ha, rfl, by simp⟩
      · rw [splitFirstWith, if_neg ha] at h
        cases hs : splitFirstWith p as with
        | none => simp only [hs] at h; exact absurd h (by simp)
        | some t =>
            obtain ⟨pre', y, post'⟩ := t
            simp only [hs, Option.some.injEq, Prod.mk.injEq] at h
            obtain ⟨h1, h2, h3⟩ := h
            subst h1; subst h2; subst h3
            obtain ⟨hy, heq, hpre⟩ := ih hs
            refine ⟨hy, by simp [heq], ?_⟩
            intro z hz
            rcases List.mem_cons.mp hz with rfl | hz'
            · exact Bool.not_eq_true _ ▸ ha
            · exact hpre z hz'

/-- `AddUser` on a non-member of a non-full room is a plain append. -/
theorem AddUser_append {r : ChatRoom} {u : String} (hu : r.HasUser u = false)
    (hf : r.users.length < 2) (now : Nat) :
    r.AddUser u now = { r with users := r.users ++ [u], updatedAt := now } := by
  simp [ChatRoom.AddUser, ChatRoom.IsFull, hu, Nat.not_le.mpr hf]

/-- A waiting room is not full. -/
theorem IsWaiting_length {r : ChatRoom} (h : r.IsWaiting = true) :
    r.users.length = 1 := by
  simpa [ChatRoom.IsWaiting] using h

/-- The waiting-room loop is exactly: split off the first waiting room and
apply `AddUser` to it in place. -/
theorem addToFirstWaiting_eq (now : Nat) (u : String) :
    ∀ rooms : List ChatRoom,
      addToFirstWaiting now u rooms =
        match splitFirstWith ChatRoom.IsWaiting rooms with
        | none => (none, rooms)
        | some (pre, r, post) => (some r.code, pre ++ (r.AddUser u now :: post)) := by
  intro rooms
  induction rooms with
  | nil => simp [addToFirstWaiting, splitFirstWith]
  | cons r rs ih =>
      by_cases hw : r.IsWaiting
      · simp [addToFirstWaiting, splitFirstWith, hw]
      · rw [Bool.not_eq_true] at hw
        simp only [addToFirstWaiting, hw, if_neg Bool.false_ne_true,
          splitFirstWith, ih]
        cases h : splitFirstWith ChatRoom.IsWaiting rs with
        | none => simp
        | some t => obtain ⟨pre, x, post⟩ := t; simp

/-- The queue-scan loop against the spec's 1-based position. -/
theorem findUserIdx_eq_spec (u : String) :
    ∀ (q : List QueueEntry) (i : Nat),
      findUserIdx u q i = (queuePositionSpec u q).map (fun p => p + i - 1) := by
  intro q
  induction q with
  | nil => intro i; simp [findUserIdx, queuePositionSpec]
  | cons e es ih =>
      intro i
      by_cases he : (e.username == u) = true
      · simp only [findUserIdx, queuePositionSpec, if_pos he, Option.map_some',
          Option.some.injEq]
        omega
      · simp only [findUserIdx, queuePositionSpec, if_neg he,
          ih (i + 1), Option.map_map]
        cases queuePositionSpec u es with
        | none => rfl
        | some p =>
            simp only [Option.map_some', Function.comp_apply, Option.some.injEq]
            omega

/-- Spec-side positions are 1-based, hence positive. -/
theorem queuePositionSpec_pos {u : String} :
    ∀ {q : List QueueEntry} {p : Nat}, queuePositionSpec u q = some p → 1 ≤ p := by
  intro q
  induction q with
  | nil => intro p h; simp [queuePositionSpec] at h
  | cons e es ih =>
      intro p h
      by_cases he : (e.username == u) = true
      · simp only [queuePositionSpec, if_pos he, Option.some.injEq] at h
        omega
      · simp only [queuePositionSpec, if_neg he] at h
        cases hs : queuePositionSpec u es with
        | none => rw [hs] at h; simp at h
        | some p' => rw [hs] at h; simp only [Option.map_some', Option.some.injEq] at h; omega

theorem queuePositionSpec_eq_none {u : String} :
    ∀ {q : List QueueEntry}, queuePositionSpec u q = none ↔ ∀ e ∈ q, (e.username == u) = false := by
  intro q
  induction q with
  | nil => simp [queuePositionSpec]
  | cons e es ih =>
      by_cases he : (e.username == u) = true
      · simp only [queuePositionSpec, if_pos he]
        constructor
        · intro h; exact absurd h (by simp)
        · intro hall
          exact absurd (hall e (by simp)) (by simp [he])
      · simp only [queuePositionSpec, if_neg he, Option.map_eq_none', List.mem_cons]
        constructor
        · rintro hn x (rfl | hx)
          · exact Bool.not_eq_true _ ▸ he
          · exact ih.mp hn x hx
        · intro hall
          exact ih.mpr fun x hx => hall x (Or.inr hx)

/-- `addToQueue` never touches the registry. -/
theorem addToQueue_rooms (now : Nat) (s : ChatState) (u : String) :
    (addToQueue now s u).2.rooms = s.rooms := by
  unfold addToQueue
  cases findUserIdx u s.queue 0 with
  | none => rfl
  | some i => rfl

/-- `addToQueue` always answers `queued`. -/
theorem addToQueue_status (now : Nat) (s : ChatState) (u : String) :
    (addToQueue now s u).1.status = .queued := by
  unfold addToQueue
  cases findUserIdx u s.queue 0 with
  | none => rfl
  | some i => rfl

/-! ## Room-invariant preservation lemmas -/

/-- `AddUser` keeps the 1-or-2-member bound: it only appends below the
`IsFull` cap. -/
theorem AddUser_inv {r : ChatRoom} (h1 : 1 ≤ r.users.length)
    (h2 : r.users.length ≤ 2) (u : String) (now : Nat) :
    1 ≤ (r.AddUser u now).users.length ∧ (r.AddUser u now).users.length ≤ 2 := by
  unfold ChatRoom.AddUser
  by_cases hc : (!r.HasUser u && !r.IsFull) = true
  · rw [if_pos hc]
    simp only [Bool.and_eq_true, Bool.not_eq_true'] at hc
    have : ¬ 2 ≤ r.users.length := by
      simpa [ChatRoom.IsFull] using hc.2
    simp only [List.length_append, List.length_cons, List.length_nil]
    omega
  · rw [if_neg hc]; exact ⟨h1, h2⟩

theorem addToFirstWaiting_inv (now : Nat) (u : String) :
    ∀ rooms : List ChatRoom, (∀ r ∈ rooms, 1 ≤ r.users.length ∧ r.users.length ≤ 2) →
      ∀ x ∈ (addToFirstWaiting now u rooms).2, 1 ≤ x.users.length ∧ x.users.length ≤ 2 := by
  intro rooms
  induction rooms with
  | nil => intro _ x hx; simp [addToFirstWaiting] at hx
  | cons r rs ih =>
      intro hinv x hx
      by_cases hw : r.IsWaiting = true
      · simp only [addToFirstWaiting, if_pos hw, List.mem_cons] at hx
        rcases hx with rfl | hx
        · have := hinv r (by simp)
          exact AddUser_inv this.1 this.2 u now
        · exact hinv x (by simp [hx])
      · simp only [addToFirstWaiting, if_neg hw, List.mem_cons] at hx
        rcases hx with rfl | hx
        · exact hinv x (by simp)
        · exact ih (fun y hy => hinv y (by simp [hy])) x hx

theorem updateRoomsAdd_inv (now : Nat) (code : Nat) (u : String) :
    ∀ rooms : List ChatRoom, (∀ r ∈ rooms, 1 ≤ r.users.length ∧ r.users.length ≤ 2) →
      ∀ x ∈ updateRoomsAdd now code u rooms, 1 ≤ x.users.length ∧ x.users.length ≤ 2 := by
  intro rooms
  induction rooms with
  | nil => intro _ x hx; simp [updateRoomsAdd] at hx
  | cons r rs ih =>
      intro hinv x hx
      by_cases hc : (r.code == code) = true
      · simp only [updateRoomsAdd, if_pos hc, List.mem_cons] at hx
        rcases hx with rfl | hx
        · have := hinv r (by simp)
          exact AddUser_inv this.1 this.2 u now
        · exact hinv x (by simp [hx])
      · simp only [updateRoomsAdd, if_neg hc, List.mem_cons] at hx
        rcases hx with rfl | hx
        · exact hinv x (by simp)
        · exact ih (fun y hy => hinv y (by simp [hy])) x hx

theorem leaveRooms_inv (now : Nat) (code : Nat) (u : String) :
    ∀ rooms : List ChatRoom, (∀ r ∈ rooms, 1 ≤ r.users.length ∧ r.users.length ≤ 2) →
      ∀ x ∈ leaveRooms now code u rooms, 1 ≤ x.users.length ∧ x.users.length ≤ 2 := by
  intro rooms
  induction rooms with
  | nil => intro _ x hx; simp [leaveRooms] at hx
  | cons r rs ih =>
      intro hinv x hx
      by_cases hc : (r.code == code) = true
      · simp only [leaveRooms, if_pos hc] at hx
        by_cases he : ((r.RemoveUser u now).users.isEmpty) = true
        · rw [if_pos he] at hx
          exact hinv x (by simp [hx])
        · rw [if_neg he] at hx
          rcases List.mem_cons.mp hx with rfl | hx
          · constructor
            · have hne : (r.RemoveUser u now).users ≠ [] :=
                List.isEmpty_eq_false.mp (Bool.not_eq_true _ ▸ he)
              have := List.length_pos.mpr hne
              omega
            · have h2 := (hinv r (by simp)).2
              unfold ChatRoom.RemoveUser
              by_cases hu : (r.HasUser u) = true
              · rw [if_pos hu]
                simp only
                rw [List.length_erase]
                split <;> omega
              · rw [if_neg hu]; exact h2
          · exact hinv x (by simp [hx])
      · simp only [leaveRooms, if_neg hc, List.mem_cons] at hx
        rcases hx with rfl | hx
        · exact hinv x (by simp)
        · exact ih (fun y hy => hinv y (by simp [hy])) x hx

theorem tryAssign_inv (cfg : ChatConfig) (now : Nat) :
    ∀ (q : List QueueEntry) (rooms : List ChatRoom),
      (∀ r ∈ rooms, 1 ≤ r.users.length ∧ r.users.length ≤ 2) →
      ∀ x ∈ (tryAssignQueuedUsers cfg now q rooms).2,
        1 ≤ x.users.length ∧ x.users.length ≤ 2 := by
  intro q
  induction q with
  | nil => intro rooms hinv x hx; simpa [tryAssignQueuedUsers] using hinv x hx
  | cons e es ih =>
      intro rooms hinv x hx
      simp only [tryAssignQueuedUsers] at hx
      cases hw : addToFirstWaiting now e.username rooms with
      | mk c rooms' =>
          have hr' : ∀ y ∈ rooms', 1 ≤ y.users.length ∧ y.users.length ≤ 2 := by
            intro y hy
            have : rooms' = (addToFirstWaiting now e.username rooms).2 := by rw [hw]
            exact addToFirstWaiting_inv now e.username rooms hinv y (this ▸ hy)
          cases c with
          | some code =>
              rw [hw] at hx
              exact ih rooms' hr' x hx
          | none =>
              rw [hw] at hx
              by_cases hlen : rooms.length < cfg.maxRooms
              · rw [if_pos hlen] at hx
                refine ih _ ?_ x hx
                intro y hy
                rcases List.mem_append.mp hy with hy' | hy'
                · exact hinv y hy'
                · rcases List.mem_singleton.mp hy' with rfl
                  simp
              · rw [if_neg hlen] at hx
                exact ih rooms hinv x hx

theorem StartChat_inv (cfg : ChatConfig) (now : Nat) (s : ChatState) (u : String)
    (hinv : RoomInv s) : RoomInv (StartChat cfg now s u).2 := by
  unfold StartChat
  cases hf : s.rooms.find? (fun r => r.HasUser u) with
  | some r => exact hinv
  | none =>
      cases hw : addToFirstWaiting now u s.rooms with
      | mk c rooms' =>
          have hr' : ∀ y ∈ rooms', 1 ≤ y.users.length ∧ y.users.length ≤ 2 := by
            intro y hy
            have : rooms' = (addToFirstWaiting now u s.rooms).2 := by rw [hw]
            exact addToFirstWaiting_inv now u s.rooms hinv y (this ▸ hy)
          cases c with
          | some code => exact hr'
          | none =>
              by_cases hlen : s.rooms.length < cfg.maxRooms
              · rw [if_pos hlen]
                intro y hy
                rcases List.mem_append.mp hy with hy' | hy'
                · exact hinv y hy'
                · rcases List.mem_singleton.mp hy' with rfl
                  simp
              · rw [if_neg hlen]
                intro y hy
                rw [addToQueue_rooms] at hy
                exact hinv y hy

theorem JoinRoom_inv (now : Nat) (s : ChatState) (code : Nat) (u : String)
    (hinv : RoomInv s) : RoomInv (JoinRoom now s code u).2 := by
  unfold JoinRoom
  split
  · exact hinv
  · split
    · exact hinv
    · split
      · exact hinv
      · exact updateRoomsAdd_inv now code u s.rooms hinv

theorem LeaveRoom_inv (now : Nat) (s : ChatState) (code : Nat) (u : String)
    (hinv : RoomInv s) : RoomInv (LeaveRoom now s code u) :=
  leaveRooms_inv now code u s.rooms hinv

theorem promotionSweep_inv (cfg : ChatConfig) (now : Nat) (s : ChatState)
    (hinv : RoomInv s) : RoomInv (promotionSweep cfg now s) :=
  tryAssign_inv cfg now s.queue s.rooms hinv

theorem cleanupLonelyRooms_inv (cfg : ChatConfig) (now : Nat) (s : ChatState)
    (hinv : RoomInv s) : RoomInv (cleanupLonelyRooms cfg now s) := by
  intro r hr
  exact hinv r (List.mem_filter.mp hr).1

/-- Every single engine operation preserves the room invariant. -/
theorem Step_inv {cfg : ChatConfig} {s s' : ChatState} (hstep : Step cfg s s')
    (hinv : RoomInv s) : RoomInv s' := by
  cases hstep with
  | startChat now u s => exact StartChat_inv cfg now s u hinv
  | joinRoom now code u s => exact JoinRoom_inv now s code u hinv
  | leaveRoom now code u s => exact LeaveRoom_inv now s code u hinv
  | promote now s => exact promotionSweep_inv cfg now s hinv
  | expire now s =>
      intro r hr
      exact hinv r hr
  | reap now s => exact cleanupLonelyRooms_inv cfg now s hinv

/-! ## Claim theorems -/

/-- C1.  Room capacity invariant: in every state reachable from the empty
initial state by `StartChat`, `JoinRoom`, `LeaveRoom`, promotion-sweep,
expiry-sweep and reaper steps, every registered room has between 1 and 2
members — hence between 0 and 2 members, and a room with 0 members is never
present once an operation completes. -/
theorem room_capacity_invariant (cfg : ChatConfig) {s : ChatState}
    (h : Reachable cfg s) :
    ∀ r ∈ s.rooms, 1 ≤ r.users.length ∧ r.users.length ≤ 2 := by
  have : RoomInv s := by
    induction h with
    | init => intro r hr; simp [initialState] at hr
    | step _ hstep ih => exact Step_inv hstep ih
  exact this

/-- Witness for C1 at a concrete reachable state: after `StartChat "a"` from
the empty state the single registered room has one member. -/
theorem room_capacity_invariant_witness :
    1 ≤ (ChatRoom.mk 1 ["a"] 0 0).users.length ∧
      (ChatRoom.mk 1 ["a"] 0 0).users.length ≤ 2 :=
  room_capacity_invariant ⟨1, 10, 10⟩
    (Reachable.step Reachable.init (Step.startChat 0 "a" initialState))
    (ChatRoom.mk 1 ["a"] 0 0) (by decide)

/-- C7.  Expiry sweep exactness: one tick removes exactly the entries with
`now - queuedAt >= queueTimeout`, keeps the rest in their relative order,
and leaves the registry untouched. -/
theorem expiry_sweep_exact (cfg : ChatConfig) (now : Nat) (s : ChatState) :
    (∀ e : QueueEntry, e ∈ (cleanupExpiredQueueEntries cfg now s).queue ↔
        e ∈ s.queue ∧ ¬ cfg.queueTimeout ≤ now - e.queuedAt) ∧
    ((cleanupExpiredQueueEntries cfg now s).queue).Sublist s.queue ∧
    (cleanupExpiredQueueEntries cfg now s).rooms = s.rooms := by
  refine ⟨?_, List.filter_sublist _, rfl⟩
  intro e
  simp only [cleanupExpiredQueueEntries, List.mem_filter, decide_eq_true_eq]
  exact ⟨fun ⟨h1, h2⟩ => ⟨h1, by omega⟩, fun ⟨h1, h2⟩ => ⟨h1, by omega⟩⟩

/-- Witness for C7 (the membership characterisation at a concrete queue):
with `queueTimeout = 10` and `now = 20`, an entry queued at 5 is removed and
an entry queued at 15 is kept. -/
theorem expiry_sweep_exact_witness :
    (⟨"b", 15⟩ : QueueEntry) ∈
        (cleanupExpiredQueueEntries ⟨1, 10, 10⟩ 20 ⟨[], [⟨"a", 5⟩, ⟨"b", 15⟩]⟩).queue ∧
    ¬ (⟨"a", 5⟩ : QueueEntry) ∈
        (cleanupExpiredQueueEntries ⟨1, 10, 10⟩ 20 ⟨[], [⟨"a", 5⟩, ⟨"b", 15⟩]⟩).queue :=
  ⟨((expiry_sweep_exact ⟨1, 10, 10⟩ 20 ⟨[], [⟨"a", 5⟩, ⟨"b", 15⟩]⟩).1 ⟨"b", 15⟩).mpr
      ⟨by decide, by decide⟩,
   fun hmem =>
     absurd (((expiry_sweep_exact ⟨1, 10, 10⟩ 20 ⟨[], [⟨"a", 5⟩, ⟨"b", 15⟩]⟩).1
        ⟨"a", 5⟩).mp hmem).2 (by decide)⟩

/-- C8.  Lonely-room reaping: one tick deletes exactly the rooms with
exactly one member whose `updatedAt` is at least `roomCleanupInterval` in
the past; two-member rooms survive regardless of age; the queue is
untouched. -/
theorem reaper_exact (cfg : ChatConfig) (now : Nat) (s : ChatState) :
    (∀ r : ChatRoom, r ∈ (cleanupLonelyRooms cfg now s).rooms ↔
        r ∈ s.rooms ∧ ¬(r.users.length = 1 ∧ cfg.roomCleanupInterval ≤ now - r.updatedAt)) ∧
    ((cleanupLonelyRooms cfg now s).rooms).Sublist s.rooms ∧
    (∀ r ∈ s.rooms, r.users.length = 2 → r ∈ (cleanupLonelyRooms cfg now s).rooms) ∧
    (cleanupLonelyRooms cfg now s).queue = s.queue := by
  have hmem : ∀ r : ChatRoom, r ∈ (cleanupLonelyRooms cfg now s).rooms ↔
      r ∈ s.rooms ∧ ¬(r.users.length = 1 ∧ cfg.roomCleanupInterval ≤ now - r.updatedAt) := by
    intro r
    simp only [cleanupLonelyRooms, List.mem_filter, Bool.not_eq_true',
      Bool.and_eq_false_iff, beq_eq_false_iff_ne, ne_eq, decide_eq_false_iff_not]
    constructor
    · rintro ⟨h1, h2 | h2⟩
      · exact ⟨h1, fun hc => h2 hc.1⟩
      · exact ⟨h1, fun hc => h2 hc.2⟩
    · rintro ⟨h1, h2⟩
      refine ⟨h1, ?_⟩
      by_cases hl : r.users.length = 1
      · exact Or.inr fun hc => h2 ⟨hl, hc⟩
      · exact Or.inl hl
  refine ⟨hmem, List.filter_sublist _, ?_, rfl⟩
  intro r hr h2
  exact (hmem r).mpr ⟨hr, fun hc => by omega⟩

/-- Witness for C8: a two-member room of age 100 survives the reaper while a
one-member room of the same age is deleted. -/
theorem reaper_exact_witness :
    (⟨2, ["a", "b"], 0, 0⟩ : ChatRoom) ∈
        (cleanupLonelyRooms ⟨1, 10, 10⟩ 100 ⟨[⟨1, ["c"], 0, 0⟩, ⟨2, ["a", "b"], 0, 0⟩], []⟩).rooms ∧
    ¬ (⟨1, ["c"], 0, 0⟩ : ChatRoom) ∈
        (cleanupLonelyRooms ⟨1, 10, 10⟩ 100 ⟨[⟨1, ["c"], 0, 0⟩, ⟨2, ["a", "b"], 0, 0⟩], []⟩).rooms :=
  ⟨(reaper_exact ⟨1, 10, 10⟩ 100 ⟨[⟨1, ["c"], 0, 0⟩, ⟨2, ["a", "b"], 0, 0⟩], []⟩).2.2.1
      ⟨2, ["a", "b"], 0, 0⟩ (by decide) (by decide),
   fun hmem =>
     absurd (((reaper_exact ⟨1, 10, 10⟩ 100 ⟨[⟨1, ["c"], 0, 0⟩, ⟨2, ["a", "b"], 0, 0⟩], []⟩).1
        ⟨1, ["c"], 0, 0⟩).mp hmem).2 (by decide)⟩

/-- C9.  Enqueue idempotence and 1-based positions: enqueuing a present
username returns its existing 1-based position and changes nothing;
enqueuing an absent one appends it and returns the new length;
`GetQueuePosition` is the 1-based index or 0; and the concrete FIFO
scenario A, B, C reports positions 1, 2, 3, then 1, 2 for B, C once the
front entry is gone. -/
theorem enqueue_positions (now : Nat) (s : ChatState) (u : String) :
    (addToQueue now s u =
      match queuePositionSpec u s.queue with
      | some p =>
          ({ status := .queued, roomCode := 0, position := p,
             message := "Already in queue" }, s)
      | none =>
          ({ status := .queued, roomCode := 0, position := s.queue.length + 1,
             message := "Added to queue" }, { s with queue := s.queue ++ [⟨u, now⟩] })) ∧
    GetQueuePosition s u = (queuePositionSpec u s.queue).getD 0 ∧
    (GetQueuePosition (addToQueue 2 (addToQueue 1 (addToQueue 0 initialState "A").2 "B").2 "C").2 "A" = 1 ∧
     GetQueuePosition (addToQueue 2 (addToQueue 1 (addToQueue 0 initialState "A").2 "B").2 "C").2 "B" = 2 ∧
     GetQueuePosition (addToQueue 2 (addToQueue 1 (addToQueue 0 initialState "A").2 "B").2 "C").2 "C" = 3 ∧
     GetQueuePosition ⟨[], [⟨"B", 1⟩, ⟨"C", 2⟩]⟩ "B" = 1 ∧
     GetQueuePosition ⟨[], [⟨"B", 1⟩, ⟨"C", 2⟩]⟩ "C" = 2) := by
  refine ⟨?_, ?_, by decide⟩
  · unfold addToQueue
    rw [findUserIdx_eq_spec]
    cases hq : queuePositionSpec u s.queue with
    | none => simp
    | some p =>
        have hp := queuePositionSpec_pos hq
        have h1 : p + 0 - 1 + 1 = p := by omega
        simp only [Option.map_some', h1]
  · unfold GetQueuePosition
    rw [findUserIdx_eq_spec]
    cases hq : queuePositionSpec u s.queue with
    | none => rfl
    | some p =>
        have hp := queuePositionSpec_pos hq
        simp only [Option.map_some', Option.getD_some]
        omega

/-- C10.  `StartChat` never shrinks the queue: it leaves the queue exactly
as it was or appends a single entry for `u` at the back; when `u` is
already queued the queue is unchanged even if a room is assigned. -/
theorem startChat_queue_frame (cfg : ChatConfig) (now : Nat) (s : ChatState)
    (u : String) :
    ((StartChat cfg now s u).2.queue = s.queue ∨
     (StartChat cfg now s u).2.queue = s.queue ++ [⟨u, now⟩]) ∧
    ((∃ e ∈ s.queue, e.username = u) → (StartChat cfg now s u).2.queue = s.queue) := by
  unfold StartChat
  split
  · exact ⟨Or.inl rfl, fun _ => rfl⟩
  · split
    · exact ⟨Or.inl rfl, fun _ => rfl⟩
    · split
      · exact ⟨Or.inl rfl, fun _ => rfl⟩
      · unfold addToQueue
        rw [findUserIdx_eq_spec]
        cases hq : queuePositionSpec u s.queue with
        | some p => exact ⟨Or.inl rfl, fun _ => rfl⟩
        | none =>
            refine ⟨Or.inr rfl, ?_⟩
            rintro ⟨e, he, hu⟩
            have hfalse := queuePositionSpec_eq_none.mp hq e he
            simp [hu] at hfalse

/-- Witness for C10: a queued user who gets a room via `StartChat` keeps the
queue entry (the registry is full, the user is already queued). -/
theorem startChat_queue_frame_witness :
    (StartChat ⟨1, 10, 10⟩ 5 ⟨[⟨1, ["a", "b"], 0, 0⟩], [⟨"u", 0⟩]⟩ "u").2.queue
      = [⟨"u", 0⟩] :=
  (startChat_queue_frame ⟨1, 10, 10⟩ 5 ⟨[⟨1, ["a", "b"], 0, 0⟩], [⟨"u", 0⟩]⟩ "u").2
    ⟨⟨"u", 0⟩, by decide, rfl⟩

/-- In-place `AddUser` on the room holding `code`, expressed through the
split around the first room with that code. -/
theorem updateRoomsAdd_eq (now : Nat) (code : Nat) (u : String) :
    ∀ {rooms : List ChatRoom} {pre r post},
      splitFirstWith (fun x => x.code == code) rooms = some (pre, r, post) →
      updateRoomsAdd now code u rooms = pre ++ (r.AddUser u now :: post) := by
  intro rooms
  induction rooms with
  | nil => intro pre r post h; simp [splitFirstWith] at h
  | cons a as ih =>
      intro pre r post h
      by_cases ha : (a.code == code) = true
      · simp only [splitFirstWith, if_pos ha, Option.some.injEq, Prod.mk.injEq] at h
        obtain ⟨h1, h2, h3⟩ := h
        subst h1; subst h2; subst h3
        simp [updateRoomsAdd, ha]
      · rw [splitFirstWith, if_neg ha] at h
        cases hs : splitFirstWith (fun x => x.code == code) as with
        | none => simp only [hs] at h; exact absurd h (by simp)
        | some t =>
            obtain ⟨pre', y, post'⟩ := t
            simp only [hs, Option.some.injEq, Prod.mk.injEq] at h
            obtain ⟨h1, h2, h3⟩ := h
            subst h1; subst h2; subst h3
            simp [updateRoomsAdd, ha, ih hs]

/-- C3.  `JoinRoom` guards: it equals the spec-side decision procedure
(unknown code fails with `roomNotFound`; an existing member is a no-op
success even in a full room; a full room rejects a third user with
`roomFull`; otherwise the user is appended and `updatedAt` refreshed), and
it answers `roomNotFound` iff no room with that code exists. -/
theorem joinRoom_guards (now : Nat) (s : ChatState) (code : Nat) (u : String) :
    JoinRoom now s code u = joinRoomSpec now s code u ∧
    ((JoinRoom now s code u).1 = .roomNotFound ↔ ∀ r ∈ s.rooms, r.code ≠ code) := by
  have hmain : JoinRoom now s code u = joinRoomSpec now s code u := by
    unfold JoinRoom joinRoomSpec
    rw [find?_eq_splitFirstWith]
    cases hs : splitFirstWith (fun r => r.code == code) s.rooms with
    | none => rfl
    | some t =>
        obtain ⟨pre, r, post⟩ := t
        simp only [Option.map_some']
        by_cases hu : (r.HasUser u) = true
        · simp [hu]
        · by_cases hfull : (r.IsFull) = true
          · have h2 : 2 ≤ r.users.length := by
              simpa [ChatRoom.IsFull] using hfull
            simp [hu, hfull, h2]
          · have hu' : r.HasUser u = false := by simpa using hu
            have hlt : r.users.length < 2 := by
              by_contra hge
              exact hfull (by simp only [ChatRoom.IsFull, decide_eq_true_eq]; omega)
            rw [if_neg hu, if_neg hfull, if_neg hu, if_neg (by omega : ¬ 2 ≤ r.users.length)]
            rw [updateRoomsAdd_eq now code u hs, AddUser_append hu' hlt]
  refine ⟨hmain, ?_⟩
  rw [hmain]
  unfold joinRoomSpec
  cases hs : splitFirstWith (fun r => r.code == code) s.rooms with
  | none =>
      constructor
      · intro _ r hr
        have := splitFirstWith_eq_none.mp hs r hr
        simpa using this
      · intro _; rfl
  | some t =>
      obtain ⟨pre, r, post⟩ := t
      obtain ⟨hc, heq, -⟩ := splitFirstWith_sat hs
      have hmem : r ∈ s.rooms := by
        rw [heq]; exact List.mem_append.mpr (Or.inr (List.mem_cons_self _ _))
      constructor
      · intro h1
        exfalso
        by_cases hu : (r.HasUser u) = true
        · simp [hu] at h1
        · by_cases hfull : 2 ≤ r.users.length
          · simp [hu, hfull] at h1
          · simp [hu, hfull] at h1
      · intro hall
        exact absurd (by simpa using hc) (hall r hmem)

/-- Witness for C3: joining an unknown code in the empty registry matches
the spec and reports `roomNotFound`. -/
theorem joinRoom_guards_witness :
    JoinRoom 0 initialState 7 "a" = joinRoomSpec 0 initialState 7 "a" :=
  (joinRoom_guards 0 initialState 7 "a").1

/-- On a registry without empty rooms (the reachable situation, by C1) the
`LeaveRoom` loop equals the spec-side split description. -/
theorem leaveRooms_eq (now : Nat) (code : Nat) (u : String) :
    ∀ rooms : List ChatRoom, (∀ r ∈ rooms, r.users ≠ []) →
      leaveRooms now code u rooms =
        match splitFirstWith (fun r => r.code == code) rooms with
        | none => rooms
        | some (pre, r, post) =>
            if r.HasUser u then
              if (r.users.erase u).isEmpty then pre ++ post
              else pre ++ ({ r with users := r.users.erase u, updatedAt := now } :: post)
            else rooms := by
  intro rooms
  induction rooms with
  | nil => intro _; rfl
  | cons a as ih =>
      intro hinv
      by_cases ha : (a.code == code) = true
      · simp only [leaveRooms, if_pos ha, splitFirstWith]
        by_cases hu : (a.HasUser u) = true
        · have hrem : a.RemoveUser u now =
              { a with users := a.users.erase u, updatedAt := now } := by
            simp [ChatRoom.RemoveUser, hu]
          rw [hrem]
          by_cases he : ((a.users.erase u).isEmpty) = true
          · simp [hu, he]
          · simp [hu, he]
        · have hrem : a.RemoveUser u now = a := by
            simp [ChatRoom.RemoveUser, hu]
          rw [hrem]
          have hne : a.users ≠ [] := hinv a (by simp)
          have he : (a.users.isEmpty) = false := List.isEmpty_eq_false.mpr hne
          simp [hu, he]
      · simp only [leaveRooms, if_neg ha, splitFirstWith]
        rw [ih (fun r hr => hinv r (by simp [hr]))]
        cases hs : splitFirstWith (fun r => r.code == code) as with
        | none => simp
        | some t =>
            obtain ⟨pre, r, post⟩ := t
            simp only
            by_cases hu : (r.HasUser u) = true
            · by_cases he : ((r.users.erase u).isEmpty) = true
              · simp [hu, he]
              · simp [hu, he]
            · simp [hu]

/-- C4.  `LeaveRoom` is total (it returns no error by type) and, on any
state whose rooms are all non-empty (every reachable state, by C1), it
deletes exactly the emptied room: missing room or missing membership leave
the registry unchanged, and when the room contains `u` the user is removed
and the room deleted iff its membership became empty. -/
theorem leaveRoom_total (now : Nat) (s : ChatState) (code : Nat) (u : String)
    (hinv : ∀ r ∈ s.rooms, r.users ≠ []) :
    LeaveRoom now s code u = leaveRoomSpec now s code u := by
  unfold LeaveRoom leaveRoomSpec
  rw [leaveRooms_eq now code u s.rooms hinv]
  cases hs : splitFirstWith (fun r => r.code == code) s.rooms with
  | none => rfl
  | some t =>
      obtain ⟨pre, r, post⟩ := t
      simp only
      by_cases hu : (r.HasUser u) = true
      · by_cases he : ((r.users.erase u).isEmpty) = true
        · simp [hu, he]
        · simp [hu, he]
      · simp [hu]

/-- Witness for C4: the member "a" leaving the two-member room 1 matches the
spec description (the room stays with member "b"). -/
theorem leaveRoom_total_witness :
    LeaveRoom 4 ⟨[⟨1, ["a", "b"], 0, 0⟩], []⟩ 1 "a"
      = leaveRoomSpec 4 ⟨[⟨1, ["a", "b"], 0, 0⟩], []⟩ 1 "a" :=
  leaveRoom_total 4 ⟨[⟨1, ["a", "b"], 0, 0⟩], []⟩ 1 "a" (by decide)

/-- C2.  `StartChat` decision procedure: it equals the spec-side cascade —
already-in-room (state unchanged), else append `u` to the first waiting
room, else create a fresh one-member room when under `maxRooms`, else
report the 1-based queue position (enqueuing when absent). -/
theorem startChat_decision (cfg : ChatConfig) (now : Nat) (s : ChatState)
    (u : String) :
    StartChat cfg now s u = startChatSpec cfg now s u := by
  unfold StartChat startChatSpec
  cases hf : s.rooms.find? (fun r => r.HasUser u) with
  | some r => rfl
  | none =>
      have hnone : ∀ r ∈ s.rooms, r.HasUser u = false := by
        intro r hr
        simpa using List.find?_eq_none.mp hf r hr
      rw [addToFirstWaiting_eq]
      cases hs : splitFirstWith ChatRoom.IsWaiting s.rooms with
      | some t =>
          obtain ⟨pre, r, post⟩ := t
          obtain ⟨hw, heq, -⟩ := splitFirstWith_sat hs
          have hu : r.HasUser u = false :=
            hnone r (by
              rw [heq]; exact List.mem_append.mpr (Or.inr (List.mem_cons_self _ _)))
          have hlt : r.users.length < 2 := by rw [IsWaiting_length hw]; omega
          simp only
          rw [AddUser_append hu hlt]
      | none =>
          simp only
          by_cases hlen : s.rooms.length < cfg.maxRooms
          · rw [if_pos hlen, if_pos hlen]
          · rw [if_neg hlen, if_neg hlen]
            unfold addToQueue
            rw [findUserIdx_eq_spec]
            cases hq : queuePositionSpec u s.queue with
            | none => simp
            | some p =>
                have hp := queuePositionSpec_pos hq
                have h1 : p + 0 - 1 + 1 = p := by omega
                simp only [Option.map_some', h1]

/-- The source sweep loop equals the spec-side FIFO single pass. -/
theorem tryAssign_eq (cfg : ChatConfig) (now : Nat) :
    ∀ (q : List QueueEntry) (rooms : List ChatRoom),
      tryAssignQueuedUsers cfg now q rooms = promoteSpec cfg now q rooms := by
  intro q
  induction q with
  | nil => intro rooms; rfl
  | cons e es ih =>
      intro rooms
      simp only [tryAssignQueuedUsers, promoteSpec]
      rw [addToFirstWaiting_eq]
      cases hs : splitFirstWith ChatRoom.IsWaiting rooms with
      | some t =>
          obtain ⟨pre, r, post⟩ := t
          simp only
          exact ih _
      | none =>
          simp only
          by_cases hlen : rooms.length < cfg.maxRooms
          · rw [if_pos hlen, if_pos hlen]
            exact ih _
          · rw [if_neg hlen, if_neg hlen, ih rooms]

/-- The entries a sweep keeps are a subsequence of the original queue. -/
theorem tryAssign_sublist (cfg : ChatConfig) (now : Nat) :
    ∀ (q : List QueueEntry) (rooms : List ChatRoom),
      ((tryAssignQueuedUsers cfg now q rooms).1).Sublist q := by
  intro q
  induction q with
  | nil => intro rooms; simp [tryAssignQueuedUsers]
  | cons e es ih =>
      intro rooms
      simp only [tryAssignQueuedUsers]
      cases hw : addToFirstWaiting now e.username rooms with
      | mk c rooms' =>
          cases c with
          | some code => exact List.Sublist.cons e (ih rooms')
          | none =>
              by_cases hlen : rooms.length < cfg.maxRooms
              · rw [if_pos hlen]
                exact List.Sublist.cons e (ih _)
              · rw [if_neg hlen]
                exact List.Sublist.cons₂ e (ih rooms)

/-- C5.  Promotion sweep drains in FIFO order in a single pass: one tick
equals the spec-side front-to-back pass (join the first waiting room and
dequeue; else create a room and dequeue when under capacity; else keep the
entry), and the remaining entries keep their relative order. -/
theorem promotion_sweep_fifo (cfg : ChatConfig) (now : Nat) (s : ChatState) :
    (promotionSweep cfg now s).queue = (promoteSpec cfg now s.queue s.rooms).1 ∧
    (promotionSweep cfg now s).rooms = (promoteSpec cfg now s.queue s.rooms).2 ∧
    ((promotionSweep cfg now s).queue).Sublist s.queue := by
  refine ⟨?_, ?_, ?_⟩
  · simp [promotionSweep, tryAssign_eq]
  · simp [promotionSweep, tryAssign_eq]
  · simpa [promotionSweep] using tryAssign_sublist cfg now s.queue s.rooms

/-- When some room already contains `u`, `StartChat` answers with that
room's code and changes nothing. -/
theorem StartChat_of_find_some {cfg : ChatConfig} {now : Nat} {s : ChatState}
    {u : String} {r : ChatRoom}
    (h : s.rooms.find? (fun x => x.HasUser u) = some r) :
    StartChat cfg now s u =
      ({ status := .roomAssigned, roomCode := r.code, position := 0,
         message := "Already in room" }, s) := by
  unfold StartChat
  rw [h]

/-- Whenever `StartChat` assigns a room, the resulting registry holds `u`,
and the first room found to contain `u` carries the reported code. -/
theorem startChat_assigned_find (cfg : ChatConfig) (now : Nat) (s : ChatState)
    (u : String) :
    (StartChat cfg now s u).1.status = .roomAssigned →
      ∃ r', ((StartChat cfg now s u).2).rooms.find? (fun x => x.HasUser u) = some r' ∧
        r'.code = (StartChat cfg now s u).1.roomCode := by
  unfold StartChat
  cases hf : s.rooms.find? (fun x => x.HasUser u) with
  | some r =>
      intro _
      exact ⟨r, hf, rfl⟩
  | none =>
      have hnone : ∀ x ∈ s.rooms, x.HasUser u = false := fun x hx => by
        simpa using List.find?_eq_none.mp hf x hx
      rw [addToFirstWaiting_eq]
      cases hs : splitFirstWith ChatRoom.IsWaiting s.rooms with
      | some t =>
          obtain ⟨pre, r, post⟩ := t
          obtain ⟨hw, heq, -⟩ := splitFirstWith_sat hs
          intro _
          simp only
          have hu : r.HasUser u = false :=
            hnone r (by
              rw [heq]; exact List.mem_append.mpr (Or.inr (List.mem_cons_self _ _)))
          have hlt : r.users.length < 2 := by rw [IsWaiting_length hw]; omega
          refine ⟨{ r with users := r.users ++ [u], updatedAt := now }, ?_, rfl⟩
          rw [AddUser_append hu hlt, List.find?_append]
          have hpre : pre.find? (fun x => x.HasUser u) = none :=
            List.find?_eq_none.mpr (fun x hx => by
              simp [hnone x (by rw [heq]; exact List.mem_append.mpr (Or.inl hx))])
          rw [hpre]
          simp only [Option.none_or]
          rw [List.find?_cons_of_pos _ (by simp [ChatRoom.HasUser])]
      | none =>
          simp only
          by_cases hlen : s.rooms.length < cfg.maxRooms
          · rw [if_pos hlen]
            intro _
            refine ⟨⟨generateRoomCode s.rooms, [u], now, now⟩, ?_, rfl⟩
            rw [List.find?_append, hf]
            simp only [Option.none_or]
            rw [List.find?_cons_of_pos _ (by simp [ChatRoom.HasUser])]
          · rw [if_neg hlen]
            intro h
            rw [addToQueue_status] at h
            exact absurd h (by simp)

/-- C6 counterexample: the claim promises `room_assigned` from both of two
consecutive `StartChat` calls for *every* username, but with `maxRooms = 1`
and a full room both calls for a third user return `queued`. -/
theorem startChat_idempotent_cex :
    (StartChat ⟨1, 10, 10⟩ 2 (StartChat ⟨1, 10, 10⟩ 1
        (StartChat ⟨1, 10, 10⟩ 0 initialState "u1").2 "u2").2 "u3").1.status
      ≠ ChatStatus.roomAssigned ∧
    (StartChat ⟨1, 10, 10⟩ 3 (StartChat ⟨1, 10, 10⟩ 2 (StartChat ⟨1, 10, 10⟩ 1
        (StartChat ⟨1, 10, 10⟩ 0 initialState "u1").2 "u2").2 "u3").2 "u3").1.status
      ≠ ChatStatus.roomAssigned := by decide

/-- C6 (amended).  Idempotent start: whenever `StartChat(u)` returns
`room_assigned`, an immediate second `StartChat(u)` with no intervening
operation returns `room_assigned` with the same room code (when the
registry is exhausted both calls return `queued` instead). -/
theorem startChat_idempotent (cfg : ChatConfig) (now now2 : Nat)
    (s : ChatState) (u : String)
    (h : (StartChat cfg now s u).1.status = .roomAssigned) :
    (StartChat cfg now2 (StartChat cfg now s u).2 u).1.status = .roomAssigned ∧
    (StartChat cfg now2 (StartChat cfg now s u).2 u).1.roomCode
      = (StartChat cfg now s u).1.roomCode := by
  obtain ⟨r', hfind, hcode⟩ := startChat_assigned_find cfg now s u h
  rw [StartChat_of_find_some hfind]
  exact ⟨rfl, hcode⟩

/-- Witness for C6: from the empty state, two consecutive `StartChat "a"`
calls agree on the room code. -/
theorem startChat_idempotent_witness :
    (StartChat ⟨1, 10, 10⟩ 1 (StartChat ⟨1, 10, 10⟩ 0 initialState "a").2 "a").1.status
        = ChatStatus.roomAssigned ∧
    (StartChat ⟨1, 10, 10⟩ 1 (StartChat ⟨1, 10, 10⟩ 0 initialState "a").2 "a").1.roomCode
        = (StartChat ⟨1, 10, 10⟩ 0 initialState "a").1.roomCode :=
  startChat_idempotent ⟨1, 10, 10⟩ 0 1 initialState "a" (by decide)

end ChatMix
